import Mathlib

/-!
Verification of the string-art generator core (`StringArtGenerator.jsx`).

The source's algorithmic core consists of four functions:
`calculateNailPositions` (pin layout around the rectangle perimeter),
`getLinePixels` (Bresenham-style line rasterizer), `calculateLineScore`
(mean darkness along a pixel sequence), and the greedy loop inside
`generateStringArt` (darkness-field initialisation, candidate scanning with
a minimum circular pin distance, a line cache keyed by unordered pin pair,
fixed-amount darkness subtraction along the winning line, per-iteration
cancellation checking).

Embedding conventions: JavaScript numbers are modelled exactly, with ℚ for
the real-valued quantities (pin coordinates, darkness values, scores) and
ℤ/ℕ for integer quantities.  `Math.round` is `jsRound` (floor of x + 1/2,
JavaScript's half-up rounding).  In the program every call to
`getLinePixels` passes integer (already rounded) coordinates, so the
rasterizer is embedded over ℤ, on which the source's `Math.round` calls
are the identity.  The asynchronous cancellation flag
(`processingRef.current`) is modelled as a predicate on the iteration
index, checked exactly where the source checks the flag (top of each
iteration).  The `Map` line cache is modelled as an association list.
-/

/-- Integer pixel coordinate produced by the rasterizer. -/
structure Pixel where
  x : ℤ
  y : ℤ
deriving DecidableEq, Repr

/-- Adjacency of consecutive rasterized pixels: each coordinate moves by at
most one, and at least one coordinate moves (8-connectivity, no stationary
repeats). -/
def adjPix (p q : Pixel) : Prop :=
  (q.x - p.x).natAbs ≤ 1 ∧ (q.y - p.y).natAbs ≤ 1 ∧ (q.x ≠ p.x ∨ q.y ≠ p.y)

instance (p q : Pixel) : Decidable (adjPix p q) := by
  unfold adjPix
  infer_instance

/-- JavaScript `Math.round`: half-up rounding, `⌊q + 1/2⌋`. -/
def jsRound (q : ℚ) : ℤ := ⌊q + 1/2⌋

/-- Loop body of the source's `getLinePixels` (`while (true) { pixels.push
…; if (x === x1 && y === y1) break; const e2 = 2*err; if (e2 > -dy) { err
-= dy; x += sx; } if (e2 < dx) { err += dx; y += sy; } }`), with explicit
fuel for termination; the driver supplies enough fuel (proved below).
Coordinates are integers, so the source's `Math.round` calls are the
identity here. -/
def bres (fuel : ℕ) (x1 y1 dx dy sx sy err x y : ℤ) : List Pixel :=
  match fuel with
  | 0 => []
  | fuel + 1 =>
    if x = x1 ∧ y = y1 then [⟨x, y⟩]
    else
      let e2 := 2 * err
      let xn := if e2 > -dy then x + sx else x
      let errx := if e2 > -dy then err - dy else err
      let yn := if e2 < dx then y + sy else y
      let errn := if e2 < dx then errx + dx else errx
      ⟨x, y⟩ :: bres fuel x1 y1 dx dy sx sy errn xn yn

/-- Source `getLinePixels(x0, y0, x1, y1)`: Bresenham rasterization with
`dx = |x1-x0|`, `dy = |y1-y0|`, `sx = x0 < x1 ? 1 : -1`,
`sy = y0 < y1 ? 1 : -1`, `err = dx - dy`. -/
def getLinePixels (x0 y0 x1 y1 : ℤ) : List Pixel :=
  let dx := |x1 - x0|
  let dy := |y1 - y0|
  let sx : ℤ := if x0 < x1 then 1 else -1
  let sy : ℤ := if y0 < y1 then 1 else -1
  bres ((x1 - x0).natAbs + (y1 - y0).natAbs + 1) x1 y1 dx dy sx sy (dx - dy) x0 y0

/-- Nail produced by `calculateNailPositions`: real-valued position and
sequential index. -/
structure Nail where
  x : ℚ
  y : ℚ
  index : ℕ
deriving DecidableEq, Repr

/-- Position assigned to arc-length `currentDist` by the four-segment case
split in the source's `calculateNailPositions` loop body. -/
def nailXY (width height currentDist : ℚ) : ℚ × ℚ :=
  if currentDist < width then (currentDist, 0)
  else if currentDist < width + height then (width, currentDist - width)
  else if currentDist < 2 * width + height then
    (width - (currentDist - width - height), height)
  else (0, height - (currentDist - 2 * width - height))

/-- Source `calculateNailPositions(width, height, count)`: pins evenly
spaced by arc length `perimeter / count` clockwise from the top-left
corner.  The memoisation cache in the source is semantically transparent
(the function is pure) and is not modelled. -/
def calculateNailPositions (width height : ℚ) (count : ℕ) : List Nail :=
  let perimeter := 2 * (width + height)
  let spacing := perimeter / count
  (List.range count).map fun (i : ℕ) =>
    let p := nailXY width height ((i : ℚ) * spacing)
    ⟨p.1, p.2, i⟩

/-- Bounds test used by both `calculateLineScore` and the subtraction loop:
`pixel.x >= 0 && pixel.x < width && pixel.y >= 0 && pixel.y < height`. -/
def inBoundsB (w h : ℤ) (p : Pixel) : Bool :=
  decide (0 ≤ p.x ∧ p.x < w ∧ 0 ≤ p.y ∧ p.y < h)

/-- Source `calculateLineScore(pixels, imageArray, width, height)`: sums the
field values at in-bounds pixels (row-major index `y*width + x`), counts
them, and returns the mean, or `0` when no pixel was in bounds. -/
def calculateLineScore (pixels : List Pixel) (imageArray : List ℚ)
    (w h : ℤ) : ℚ :=
  let r := pixels.foldl
    (fun (acc : ℚ × ℕ) p =>
      if inBoundsB w h p then
        (acc.1 + imageArray.getD (p.y * w + p.x).toNat 0, acc.2 + 1)
      else acc)
    (0, 0)
  if 0 < r.2 then r.1 / (r.2 : ℚ) else 0

/-- RGBA image data as consumed by `generateStringArt`: one `(r, g, b)`
triple per pixel in row-major order (the alpha channel is never read),
plus the pixel-grid dimensions. -/
structure ImageData where
  data : List (ℚ × ℚ × ℚ)
  width : ℕ
  height : ℕ

/-- Darkness-field initialisation in `generateStringArt`:
`darknessArray[i] = 255 - (r + g + b)/3`. -/
def initDarkness (d : ImageData) : List ℚ :=
  d.data.map fun c => 255 - (c.1 + c.2.1 + c.2.2) / 3

/-- Darkness subtraction along a selected line in `generateStringArt`: for
each in-bounds pixel, `darknessArray[idx] = max(0, darknessArray[idx] - 25)`;
out-of-bounds pixels are skipped. -/
def subtractLine (field : List ℚ) (pixels : List Pixel) (w h : ℤ) : List ℚ :=
  pixels.foldl
    (fun f p =>
      if inBoundsB w h p then
        f.set (p.y * w + p.x).toNat (max 0 (f.getD (p.y * w + p.x).toNat 0 - 25))
      else f)
    field

/-- Connection appended to the output path: `{ from: currentNail, to:
bestNail }` (the source's field names `from`/`to` are Lean keywords). -/
structure Connection where
  fromNail : ℕ
  toNail : ℕ
deriving DecidableEq, Repr

/-- Line cache of `generateStringArt`: a `Map` keyed by the unordered pin
pair (canonicalised as `(min, max)`), modelled as an association list. -/
abbrev LineCache := List ((ℕ × ℕ) × List Pixel)

/-- Lookup in the line cache. -/
def cacheGet (cache : LineCache) (k : ℕ × ℕ) : Option (List Pixel) :=
  (cache.find? fun e => decide (e.1 = k)).map fun e => e.2

/-- Circular pin-index distance used by the candidate filter:
`min(|i - currentNail|, nailCount - |i - currentNail|)`. -/
def circDist (count i j : ℕ) : ℕ :=
  min ((i : ℤ) - j).natAbs (count - ((i : ℤ) - j).natAbs)

/-- Accumulator of the candidate scan: the line cache and the best
candidate so far.  `none` models the source's initial
`bestNail = -1, bestScore = -Infinity` (any finite score beats it). -/
structure ScanAcc where
  cache : LineCache
  best : Option (ℕ × ℚ)

/-- One step of the candidate loop `for (let i = 0; i < nailCount; i++)`
inside `generateStringArt`: skip pins closer than `minDistance` in circular
index distance, fetch or compute the rasterized line through the cache
(computed in the direction current → i on a miss), score it, and keep it
when its score strictly beats the best so far. -/
def considerCandidate (nails : List Nail) (field : List ℚ) (w h : ℤ)
    (count minDist cur : ℕ) (acc : ScanAcc) (i : ℕ) : ScanAcc :=
  if circDist count cur i < minDist then acc
  else
    let key := (min cur i, max cur i)
    let hit := cacheGet acc.cache key
    let pixels :=
      match hit with
      | some px => px
      | none =>
          getLinePixels (jsRound ((nails.getD cur ⟨0, 0, 0⟩).x))
            (jsRound ((nails.getD cur ⟨0, 0, 0⟩).y))
            (jsRound ((nails.getD i ⟨0, 0, 0⟩).x))
            (jsRound ((nails.getD i ⟨0, 0, 0⟩).y))
    let cacheNext :=
      match hit with
      | some _ => acc.cache
      | none => (key, pixels) :: acc.cache
    let score := calculateLineScore pixels field w h
    let bestNext :=
      match acc.best with
      | none => some (i, score)
      | some (bi, bs) => if bs < score then some (i, score) else some (bi, bs)
    ⟨cacheNext, bestNext⟩

/-- Full candidate scan of one build iteration, over pin indices
`0, 1, …, nailCount - 1` in ascending order. -/
def scanCandidates (nails : List Nail) (field : List ℚ) (w h : ℤ)
    (count minDist cur : ℕ) (cache : LineCache) : ScanAcc :=
  (List.range count).foldl (considerCandidate nails field w h count minDist cur)
    ⟨cache, none⟩

/-- Mutable state of the greedy loop in `generateStringArt`: the darkness
field, the line cache, the accumulated path, and the current pin. -/
structure BuildState where
  field : List ℚ
  cache : LineCache
  path : List Connection
  current : ℕ
deriving Repr

/-- One iteration body of the greedy loop: scan candidates; on
`bestNail === -1` (no candidate) report `none` (the source breaks); else
subtract 25 along the winning cached line, append the connection, and move
to the winner. -/
def buildStep (nails : List Nail) (w h : ℤ) (count minDist : ℕ)
    (s : BuildState) : Option BuildState :=
  let r := scanCandidates nails s.field w h count minDist s.current s.cache
  match r.best with
  | none => none
  | some (best, _) =>
      let key := (min s.current best, max s.current best)
      let pixels := (cacheGet r.cache key).getD []
      some ⟨subtractLine s.field pixels w h, r.cache,
        s.path ++ [⟨s.current, best⟩], best⟩

/-- Greedy loop `for (let iteration = 0; iteration < stringCount;
iteration++)` of `generateStringArt`.  `cancel` is the external
cancellation flag (`!processingRef.current`), checked at the top of every
iteration; `iter` is the iteration index, `budget` the remaining
iterations. -/
def buildLoop (nails : List Nail) (w h : ℤ) (count minDist : ℕ)
    (cancel : ℕ → Bool) : ℕ → ℕ → BuildState → BuildState
  | 0, _, s => s
  | budget + 1, iter, s =>
    if cancel iter then s
    else
      match buildStep nails w h count minDist s with
      | none => s
      | some sn => buildLoop nails w h count minDist cancel budget (iter + 1) sn

/-- Cancellation flag that never fires (`processingRef.current` stays
true). -/
def noCancel : ℕ → Bool := fun _ => false

/-- Cancellation flag that fires from iteration `n` on: the user stops the
run after `n` completed iterations. -/
def cancelAfter (n : ℕ) : ℕ → Bool := fun i => decide (n ≤ i)

/-- Entry point `generateStringArt`: returns `none` when no image data is
loaded (the source's `if (!imageData) return`), else initialises the
darkness field from the image, computes the pin layout on the pixel grid,
sets `minDistance = Math.floor(nailCount * 0.1)`, and runs the greedy loop
from pin 0 with an empty path and empty line cache, returning the path. -/
def generateStringArt (imageData : Option ImageData)
    (nailCount stringCount : ℕ) (cancel : ℕ → Bool) :
    Option (List Connection) :=
  match imageData with
  | none => none
  | some d =>
      let field := initDarkness d
      let nails := calculateNailPositions (d.width : ℚ) (d.height : ℚ) nailCount
      let minDist := nailCount / 10
      some (buildLoop nails (d.width : ℤ) (d.height : ℤ) nailCount minDist
        cancel stringCount 0 ⟨field, [], [], 0⟩).path

/-- First legal candidate from pin `cur` in ascending index order. -/
def firstLegal (count minDist cur : ℕ) : Option ℕ :=
  (List.range count).find? fun i => decide (minDist ≤ circDist count cur i)

/-- Path produced by a run over a uniformly zero darkness field: every
candidate scores 0, so each iteration picks the first legal candidate in
ascending index order. -/
def zeroRunPath (count minDist : ℕ) : ℕ → ℕ → List Connection
  | 0, _ => []
  | budget + 1, cur =>
    match firstLegal count minDist cur with
    | none => []
    | some i => ⟨cur, i⟩ :: zeroRunPath count minDist budget i

/-- Pin position as worded by the specification: arc-length
`d = i * (2*(width+height)/count)` mapped through the four-segment case
split (top edge, right edge, bottom edge right-to-left, left edge
bottom-to-top).  Stated separately from `calculateNailPositions` so that
the layout contract can compare the source against the specification. -/
def specPinPos (width height : ℚ) (count i : ℕ) : ℚ × ℚ :=
  let d := (i : ℚ) * (2 * (width + height) / count)
  if d < width then (d, 0)
  else if d < width + height then (width, d - width)
  else if d < 2 * width + height then (width - (d - width - height), height)
  else (0, height - (d - 2 * width - height))

/-- Structural contract of one rasterizer run: length, first pixel, last
pixel, 8-connected consecutive pixels. -/
def bresOk (l : List Pixel) (x y xe ye : ℤ) (n : ℕ) : Prop :=
  l.length = n + 1 ∧ l.head? = some ⟨x, y⟩ ∧ l.getLast? = some ⟨xe, ye⟩ ∧
    List.Chain' adjPix l

lemma scoreFold_characterisation (w h : ℤ) (imageArray : List ℚ)
    (pixels : List Pixel) (t : ℚ) (c : ℕ) :
    pixels.foldl
      (fun (acc : ℚ × ℕ) p =>
        if inBoundsB w h p then
          (acc.1 + imageArray.getD (p.y * w + p.x).toNat 0, acc.2 + 1)
        else acc)
      (t, c)
    = (t + ((pixels.filter (inBoundsB w h)).map
          fun p => imageArray.getD (p.y * w + p.x).toNat 0).sum,
       c + (pixels.filter (inBoundsB w h)).length) := by
  induction pixels generalizing t c with
  | nil => simp
  | cons p ps ih =>
    by_cases hp : inBoundsB w h p
    · simp only [List.foldl_cons, if_pos hp, ih, List.filter_cons, hp,
        if_pos, List.map_cons, List.sum_cons, List.length_cons,
        Prod.mk.injEq]
      exact ⟨by ring, by omega⟩
    · simp only [List.foldl_cons, if_neg hp, ih, List.filter_cons, hp,
        Bool.false_eq_true, if_neg, not_false_iff]

/-- C7: `calculateLineScore` returns the arithmetic mean of the field
values at the in-bounds pixels of the sequence; out-of-bounds pixels are
skipped (the function is total, so they can never cause an error); and the
result is 0 when no pixel is in bounds, including the empty-sequence
case. -/
theorem calculateLineScore_is_mean (pixels : List Pixel) (imageArray : List ℚ)
    (w h : ℤ) :
    calculateLineScore pixels imageArray w h =
      if (pixels.filter (inBoundsB w h)).length = 0 then 0
      else ((pixels.filter (inBoundsB w h)).map
          fun p => imageArray.getD (p.y * w + p.x).toNat 0).sum
        / ((pixels.filter (inBoundsB w h)).length : ℚ) := by
  unfold calculateLineScore
  rw [scoreFold_characterisation]
  rcases Nat.eq_zero_or_pos (pixels.filter (inBoundsB w h)).length with h0 | h0
  · simp [h0]
  · simp [h0, Nat.pos_iff_ne_zero.mp h0]

/-- C3: for positive width, height and pin count, `calculateNailPositions`
returns exactly `count` pins with sequential indices `0 … count-1`, pin 0
exactly at `(0,0)`, and pin `i` at the position the specification's
four-segment arc-length case split assigns to arc-length
`i * (2*(width+height)/count)`. -/
theorem calculateNailPositions_contract (width height : ℚ) (count : ℕ)
    (hw : 0 < width) (hh : 0 < height) (hc : 0 < count) :
    (calculateNailPositions width height count).length = count ∧
    (∀ i, i < count →
      (calculateNailPositions width height count).getD i ⟨0, 0, 0⟩ =
        ⟨(specPinPos width height count i).1,
         (specPinPos width height count i).2, i⟩) ∧
    (calculateNailPositions width height count).getD 0 ⟨1, 1, 1⟩ =
      ⟨0, 0, 0⟩ := by
  refine ⟨by simp [calculateNailPositions], ?_, ?_⟩
  · intro i hi
    have hl : i < (calculateNailPositions width height count).length := by
      simpa [calculateNailPositions] using hi
    rw [List.getD_eq_getElem _ _ hl]
    simp [calculateNailPositions, nailXY, specPinPos]
  · have hl : 0 < (calculateNailPositions width height count).length := by
      simpa [calculateNailPositions] using hc
    rw [List.getD_eq_getElem _ _ hl]
    simp only [calculateNailPositions, List.getElem_map, List.getElem_range]
    have : ((0 : ℕ) : ℚ) * (2 * (width + height) / count) = 0 := by
      norm_num
    simp only [this, nailXY]
    rw [if_pos hw]

/-- Witness for C3 at width 4, height 3, count 5. -/
theorem calculateNailPositions_contract_witness :
    (0 : ℚ) < 4 ∧ (0 : ℚ) < 3 ∧ 0 < 5 ∧
    ((calculateNailPositions 4 3 5).length = 5 ∧
     (∀ i, i < 5 →
       (calculateNailPositions 4 3 5).getD i ⟨0, 0, 0⟩ =
         ⟨(specPinPos 4 3 5 i).1, (specPinPos 4 3 5 i).2, i⟩) ∧
     (calculateNailPositions 4 3 5).getD 0 ⟨1, 1, 1⟩ = ⟨0, 0, 0⟩) :=
  ⟨by norm_num, by norm_num, by norm_num,
    calculateNailPositions_contract 4 3 5 (by norm_num) (by norm_num)
      (by norm_num)⟩

lemma bres_swap : ∀ (fuel : ℕ) (x1 y1 dx dy sx sy err x y : ℤ),
    bres fuel x1 y1 dx dy sx sy err x y
      = (bres fuel y1 x1 dy dx sy sx (-err) y x).map fun p => ⟨p.y, p.x⟩ := by
  intro fuel
  induction fuel with
  | zero => intros; simp [bres]
  | succ n ih =>
    intro x1 y1 dx dy sx sy err x y
    by_cases hb : x = x1 ∧ y = y1
    · have hb2 : y = y1 ∧ x = x1 := ⟨hb.2, hb.1⟩
      simp [bres, hb, hb2]
    · have hb2 : ¬(y = y1 ∧ x = x1) := fun hc => hb ⟨hc.2, hc.1⟩
      have e1 : (-dx < 2 * -err) ↔ (2 * err < dx) := by omega
      have e2 : (2 * -err < dy) ↔ (-dy < 2 * err) := by omega
      simp only [bres, if_neg hb, if_neg hb2, gt_iff_lt, List.map_cons, e1, e2]
      by_cases g1 : -dy < 2 * err
      · by_cases g2 : 2 * err < dx
        · simp only [if_pos g1, if_pos g2]
          rw [ih, show -(err - dy + dx) = -err - dx + dy from by ring]
        · simp only [if_pos g1, if_neg g2]
          rw [ih, show -(err - dy) = -err + dy from by ring]
      · by_cases g2 : 2 * err < dx
        · simp only [if_neg g1, if_pos g2]
          rw [ih, show -(err + dx) = -err - dx from by ring]
        · simp only [if_neg g1, if_neg g2]
          rw [ih]

lemma bres_wide (dx dy x1 y1 sx sy : ℤ) (hdy : 0 ≤ dy) (hxy : dy < dx)
    (hsx : sx = 1 ∨ sx = -1) (hsy : sy = 1 ∨ sy = -1) :
    ∀ (p : ℕ) (q err x y : ℤ) (fuel : ℕ),
      p + 1 ≤ fuel →
      x1 - x = sx * p →
      y1 - y = sy * q →
      err = dx - dy + (p : ℤ) * dy - q * dx →
      -dx ≤ 2 * ((p : ℤ) * dy - q * dx) →
      2 * ((p : ℤ) * dy - q * dx) ≤ dx →
      bresOk (bres fuel x1 y1 dx dy sx sy err x y) x y x1 y1 p := by
  have hdx : 0 < dx := lt_of_le_of_lt hdy hxy
  intro p
  induction p with
  | zero =>
    intro q err x y fuel hfuel hx hy herr hlo hhi
    push_cast at hx hy herr hlo hhi
    have hq : q = 0 := by
      by_contra hq0
      rcases lt_or_gt_of_ne hq0 with hneg | hpos
      · have h1 : (1 : ℤ) ≤ -q := by omega
        have h2 : dx ≤ -q * dx := le_mul_of_one_le_left (le_of_lt hdx) h1
        nlinarith [hhi]
      · have h1 : (1 : ℤ) ≤ q := by omega
        have h2 : dx ≤ q * dx := le_mul_of_one_le_left (le_of_lt hdx) h1
        nlinarith [hlo]
    have hx1 : x = x1 := by omega
    have hy1 : y = y1 := by
      rw [hq, mul_zero] at hy
      omega
    obtain ⟨f, rfl⟩ : ∃ f, fuel = f + 1 := ⟨fuel - 1, by omega⟩
    rw [hx1, hy1]
    simp [bres, bresOk]
  | succ p ih =>
    intro q err x y fuel hfuel hx hy herr hlo hhi
    push_cast at hx hy herr hlo hhi
    obtain ⟨f, rfl⟩ : ∃ f, fuel = f + 1 := ⟨fuel - 1, by omega⟩
    have hxne : ¬(x = x1 ∧ y = y1) := by
      rcases hsx with rfl | rfl
      · intro hc
        omega
      · intro hc
        omega
    have g1 : -dy < 2 * err := by nlinarith [hlo]
    have hstep : ∀ errn yn qn,
        y1 - yn = sy * qn →
        errn = dx - dy + (p : ℤ) * dy - qn * dx →
        -dx ≤ 2 * ((p : ℤ) * dy - qn * dx) →
        2 * ((p : ℤ) * dy - qn * dx) ≤ dx →
        (yn = y ∨ yn = y + sy) →
        bresOk (⟨x, y⟩ :: bres f x1 y1 dx dy sx sy errn (x + sx) yn)
          x y x1 y1 (p + 1) := by
      intro errn yn qn hyn herrn hlon hhin hymov
      have hxeq : x1 - (x + sx) = sx * (p : ℤ) := by
        rcases hsx with rfl | rfl <;> omega
      obtain ⟨hlen, hhead, hlast, hchain⟩ :=
        ih qn errn (x + sx) yn f (by omega) (by push_cast; exact hxeq)
          hyn (by push_cast; omega) (by push_cast; omega)
          (by push_cast; omega)
      refine ⟨by simp [hlen], rfl, ?_, ?_⟩
      · cases hT : bres f x1 y1 dx dy sx sy errn (x + sx) yn with
        | nil => rw [hT] at hhead; simp at hhead
        | cons a t =>
          rw [hT] at hlast
          rw [List.getLast?_cons_cons]
          exact hlast
      · rw [List.chain'_cons']
        refine ⟨?_, hchain⟩
        intro z hz
        rw [hhead] at hz
        simp only [Option.mem_def, Option.some.injEq] at hz
        subst hz
        refine ⟨?_, ?_, Or.inl ?_⟩
        · rcases hsx with rfl | rfl <;> simp
        · rcases hsy with rfl | rfl <;> rcases hymov with rfl | rfl <;> simp
        · rcases hsx with rfl | rfl <;> dsimp only <;> omega
    have e1 : ((p : ℤ) + 1) * dy = (p : ℤ) * dy + dy := by ring
    have e2 : (q - 1) * dx = q * dx - dx := by ring
    simp only [bres, if_neg hxne, gt_iff_lt, if_pos g1]
    by_cases g2 : 2 * err < dx
    · rw [if_pos g2, if_pos g2]
      refine hstep (err - dy + dx) (y + sy) (q - 1) ?_ (by push_cast; omega)
        (by push_cast; omega) (by push_cast; omega) (Or.inr rfl)
      have hyq : y1 - (y + sy) = sy * q - sy := by omega
      rw [hyq, mul_sub, mul_one]
    · rw [if_neg g2, if_neg g2]
      refine hstep (err - dy) y q hy (by push_cast; omega)
        (by push_cast; omega) (by push_cast; omega) (Or.inl rfl)

lemma bres_diag (d x1 y1 sx sy : ℤ) (hd : 0 < d)
    (hsx : sx = 1 ∨ sx = -1) (hsy : sy = 1 ∨ sy = -1) :
    ∀ (p : ℕ) (x y : ℤ) (fuel : ℕ),
      p + 1 ≤ fuel → x1 - x = sx * p → y1 - y = sy * p →
      bresOk (bres fuel x1 y1 d d sx sy 0 x y) x y x1 y1 p := by
  intro p
  induction p with
  | zero =>
    intro x y fuel hfuel hx hy
    push_cast at hx hy
    have hx1 : x = x1 := by omega
    have hy1 : y = y1 := by
      rcases hsy with rfl | rfl <;> omega
    obtain ⟨f, rfl⟩ : ∃ f, fuel = f + 1 := ⟨fuel - 1, by omega⟩
    rw [hx1, hy1]
    simp [bres, bresOk]
  | succ p ih =>
    intro x y fuel hfuel hx hy
    push_cast at hx hy
    obtain ⟨f, rfl⟩ : ∃ f, fuel = f + 1 := ⟨fuel - 1, by omega⟩
    have hxne : ¬(x = x1 ∧ y = y1) := by
      rcases hsx with rfl | rfl
      · intro hc
        omega
      · intro hc
        omega
    have g1 : -d < 2 * (0 : ℤ) := by omega
    have g2 : 2 * (0 : ℤ) < d := by omega
    simp only [bres, if_neg hxne, gt_iff_lt, if_pos g1, if_pos g2]
    have hE : (0 : ℤ) - d + d = 0 := by ring
    rw [hE]
    obtain ⟨hlen, hhead, hlast, hchain⟩ :=
      ih (x + sx) (y + sy) f (by omega)
        (by rcases hsx with rfl | rfl <;> push_cast <;> omega)
        (by rcases hsy with rfl | rfl <;> push_cast <;> omega)
    refine ⟨by simp [hlen], rfl, ?_, ?_⟩
    · cases hT : bres f x1 y1 d d sx sy 0 (x + sx) (y + sy) with
      | nil => rw [hT] at hhead; simp at hhead
      | cons a t =>
        rw [hT] at hlast
        rw [List.getLast?_cons_cons]
        exact hlast
    · rw [List.chain'_cons']
      refine ⟨?_, hchain⟩
      intro z hz
      rw [hhead] at hz
      simp only [Option.mem_def, Option.some.injEq] at hz
      subst hz
      refine ⟨?_, ?_, Or.inl ?_⟩
      · rcases hsx with rfl | rfl <;> simp
      · rcases hsy with rfl | rfl <;> simp
      · rcases hsx with rfl | rfl <;> dsimp only <;> omega

lemma getLinePixels_structure (x0 y0 x1 y1 : ℤ) :
    bresOk (getLinePixels x0 y0 x1 y1) x0 y0 x1 y1
      (max (x1 - x0).natAbs (y1 - y0).natAbs) := by
  have habsx : |x1 - x0| = ((x1 - x0).natAbs : ℤ) := Int.abs_eq_natAbs _
  have habsy : |y1 - y0| = ((y1 - y0).natAbs : ℤ) := Int.abs_eq_natAbs _
  have hsx : (if x0 < x1 then (1 : ℤ) else -1) = 1 ∨
      (if x0 < x1 then (1 : ℤ) else -1) = -1 := by
    by_cases h : x0 < x1 <;> simp [h]
  have hsy : (if y0 < y1 then (1 : ℤ) else -1) = 1 ∨
      (if y0 < y1 then (1 : ℤ) else -1) = -1 := by
    by_cases h : y0 < y1 <;> simp [h]
  have hx : x1 - x0 = (if x0 < x1 then (1 : ℤ) else -1) * ((x1 - x0).natAbs : ℤ) := by
    by_cases h : x0 < x1
    · rw [if_pos h]; omega
    · rw [if_neg h]; omega
  have hy : y1 - y0 = (if y0 < y1 then (1 : ℤ) else -1) * ((y1 - y0).natAbs : ℤ) := by
    by_cases h : y0 < y1
    · rw [if_pos h]; omega
    · rw [if_neg h]; omega
  simp only [getLinePixels, habsx, habsy]
  rcases lt_trichotomy (y1 - y0).natAbs (x1 - x0).natAbs with hlt | heq | hgt
  · rw [Nat.max_eq_left (le_of_lt hlt)]
    exact bres_wide _ _ _ _ _ _ (by positivity) (by exact_mod_cast hlt) hsx hsy
      (x1 - x0).natAbs ((y1 - y0).natAbs : ℤ) _ _ _ _ (by omega) hx hy
      (by push_cast; ring)
      (by rw [show ((x1 - x0).natAbs : ℤ) * ((y1 - y0).natAbs : ℤ)
            - ((y1 - y0).natAbs : ℤ) * ((x1 - x0).natAbs : ℤ) = 0 from by ring]
          omega)
      (by rw [show ((x1 - x0).natAbs : ℤ) * ((y1 - y0).natAbs : ℤ)
            - ((y1 - y0).natAbs : ℤ) * ((x1 - x0).natAbs : ℤ) = 0 from by ring]
          omega)
  · rcases Nat.eq_zero_or_pos (x1 - x0).natAbs with hz | hpos
    · have hx1 : x1 = x0 := by omega
      have hy0 : (y1 - y0).natAbs = 0 := by omega
      have hy1 : y1 = y0 := by omega
      subst hx1
      subst hy1
      simp [bres, bresOk]
    · rw [heq, sub_self, Nat.max_self]
      rw [heq] at hy
      exact bres_diag _ _ _ _ _ (by exact_mod_cast hpos) hsx hsy
        (x1 - x0).natAbs _ _ _ (by omega) hx hy
  · rw [Nat.max_eq_right (le_of_lt hgt), bres_swap,
      show -(((x1 - x0).natAbs : ℤ) - ((y1 - y0).natAbs : ℤ))
        = ((y1 - y0).natAbs : ℤ) - ((x1 - x0).natAbs : ℤ) from by ring]
    obtain ⟨hlen, hhead, hlast, hchain⟩ :=
      bres_wide ((y1 - y0).natAbs : ℤ) ((x1 - x0).natAbs : ℤ) y1 x1
        (if y0 < y1 then (1 : ℤ) else -1) (if x0 < x1 then (1 : ℤ) else -1)
        (by positivity) (by exact_mod_cast hgt) hsy hsx
        (y1 - y0).natAbs ((x1 - x0).natAbs : ℤ)
        (((y1 - y0).natAbs : ℤ) - ((x1 - x0).natAbs : ℤ)) y0 x0
        ((x1 - x0).natAbs + (y1 - y0).natAbs + 1) (by omega) hy hx
        (by push_cast; ring)
        (by rw [show ((y1 - y0).natAbs : ℤ) * ((x1 - x0).natAbs : ℤ)
              - ((x1 - x0).natAbs : ℤ) * ((y1 - y0).natAbs : ℤ) = 0 from by ring]
            omega)
        (by rw [show ((y1 - y0).natAbs : ℤ) * ((x1 - x0).natAbs : ℤ)
              - ((x1 - x0).natAbs : ℤ) * ((y1 - y0).natAbs : ℤ) = 0 from by ring]
            omega)
    refine ⟨by simpa using hlen, ?_, ?_, ?_⟩
    · rw [List.head?_map, hhead]
      rfl
    · rw [List.getLast?_map, hlast]
      rfl
    · rw [List.chain'_map]
      refine hchain.imp ?_
      intro a b hab
      exact ⟨hab.2.1, hab.1, hab.2.2.elim (fun h => Or.inr h) fun h => Or.inl h⟩

/-- C5: the rasterizer output is non-empty, starts at the first endpoint,
ends at the second endpoint, collapses to a single pixel when the
endpoints coincide, and consecutive pixels are 8-connected and never
stationary.  On the integer coordinates the program passes (it rounds at
every call site), rounding is the identity, so the rounded endpoints are
the endpoints themselves. -/
theorem getLinePixels_endpoints (x0 y0 x1 y1 : ℤ) :
    getLinePixels x0 y0 x1 y1 ≠ [] ∧
    (getLinePixels x0 y0 x1 y1).head? = some ⟨x0, y0⟩ ∧
    (getLinePixels x0 y0 x1 y1).getLast? = some ⟨x1, y1⟩ ∧
    getLinePixels x0 y0 x0 y0 = [⟨x0, y0⟩] ∧
    List.Chain' adjPix (getLinePixels x0 y0 x1 y1) := by
  obtain ⟨hlen, hhead, hlast, hchain⟩ := getLinePixels_structure x0 y0 x1 y1
  refine ⟨?_, hhead, hlast, ?_, hchain⟩
  · intro hnil
    rw [hnil] at hlen
    simp at hlen
  · simp [getLinePixels, bres]

/-- C4 counterexample: rasterizing (0,0)→(4,2) and (4,2)→(0,0) gives
sequences of equal length, but reversing the second does not yield the
same pixel multiset as the first: the forward run passes through (1,0) and
(3,1), the reverse run through (1,1) and (3,2). -/
theorem getLinePixels_reverse_not_perm :
    (getLinePixels 0 0 4 2).length = (getLinePixels 4 2 0 0).length ∧
    ¬ List.Perm (getLinePixels 0 0 4 2) ((getLinePixels 4 2 0 0).reverse) := by
  constructor
  · decide
  · decide

/-- C4 (amended): `rasterize(A,B)` and `rasterize(B,A)` always produce
pixel sequences of equal length (both have length
`max |Δx| |Δy| + 1`); the two runs need not visit the same pixel
multiset. -/
theorem getLinePixels_length_symm (x0 y0 x1 y1 : ℤ) :
    (getLinePixels x0 y0 x1 y1).length = (getLinePixels x1 y1 x0 y0).length := by
  have h1 := (getLinePixels_structure x0 y0 x1 y1).1
  have h2 := (getLinePixels_structure x1 y1 x0 y0).1
  rw [h1, h2, show (x0 - x1).natAbs = (x1 - x0).natAbs from by omega,
    show (y0 - y1).natAbs = (y1 - y0).natAbs from by omega]

lemma getD_mem_or_default (f : List ℚ) (n : ℕ) :
    f.getD n 0 ∈ f ∨ f.getD n 0 = 0 := by
  rcases Nat.lt_or_ge n f.length with hn | hn
  · rw [List.getD_eq_getElem _ _ hn]
    exact Or.inl (List.getElem_mem hn)
  · exact Or.inr (List.getD_eq_default _ _ hn)

lemma getD_set_ne (l : List ℚ) (i j : ℕ) (a : ℚ) (h : i ≠ j) :
    (l.set i a).getD j 0 = l.getD j 0 := by
  rcases Nat.lt_or_ge j l.length with hj | hj
  · rw [List.getD_eq_getElem _ _ (by simpa using hj), List.getD_eq_getElem _ _ hj]
    exact List.getElem_set_ne h _
  · rw [List.getD_eq_default _ _ (by simpa using hj), List.getD_eq_default _ _ hj]

lemma rowMajor_inj (w cx cy px py : ℤ) (hcx : 0 ≤ cx) (hcxw : cx < w)
    (hpx : 0 ≤ px) (hpxw : px < w)
    (heq : cy * w + cx = py * w + px) : cx = px ∧ cy = py := by
  have hw : 0 < w := lt_of_le_of_lt hcx hcxw
  have h1 : (cy - py) * w = px - cx := by linear_combination heq
  have h4 : cy - py = 0 := by
    by_contra h0
    rcases lt_or_gt_of_ne h0 with hneg | hpos
    · have h5 : cy - py ≤ -1 := by omega
      have h6 := mul_le_mul_of_nonneg_right h5 (le_of_lt hw)
      omega
    · have h5 : (1 : ℤ) ≤ cy - py := by omega
      have h6 := le_mul_of_one_le_left (le_of_lt hw) h5
      omega
  rw [h4, zero_mul] at h1
  omega

lemma subtractLine_bounds (pixels : List Pixel) :
    ∀ (field : List ℚ) (w h : ℤ),
      (∀ v ∈ field, 0 ≤ v ∧ v ≤ 255) →
      ∀ v ∈ subtractLine field pixels w h, 0 ≤ v ∧ v ≤ 255 := by
  induction pixels with
  | nil => intro field w h hf v hv; exact hf v hv
  | cons p ps ih =>
    intro field w h hf
    unfold subtractLine
    rw [List.foldl_cons]
    by_cases hp : inBoundsB w h p
    · rw [if_pos hp]
      refine ih _ w h ?_
      intro v hv
      rcases List.mem_or_eq_of_mem_set hv with hvm | hve
      · exact hf v hvm
      · have hd : 0 ≤ field.getD (p.y * w + p.x).toNat 0 ∧
            field.getD (p.y * w + p.x).toNat 0 ≤ 255 := by
          rcases getD_mem_or_default field (p.y * w + p.x).toNat with hm | h0
          · exact hf _ hm
          · rw [h0]; norm_num
        subst hve
        constructor
        · exact le_max_left _ _
        · refine max_le (by norm_num) (by linarith [hd.2])
    · rw [if_neg hp]
      exact ih field w h hf

lemma subtractLine_zero (pixels : List Pixel) :
    ∀ (field : List ℚ) (w h : ℤ), (∀ v ∈ field, v = 0) →
      ∀ v ∈ subtractLine field pixels w h, v = 0 := by
  induction pixels with
  | nil => intro field w h hf v hv; exact hf v hv
  | cons p ps ih =>
    intro field w h hf
    unfold subtractLine
    rw [List.foldl_cons]
    by_cases hp : inBoundsB w h p
    · rw [if_pos hp]
      refine ih _ w h ?_
      intro v hv
      rcases List.mem_or_eq_of_mem_set hv with hvm | hve
      · exact hf v hvm
      · have hd : field.getD (p.y * w + p.x).toNat 0 = 0 := by
          rcases getD_mem_or_default field (p.y * w + p.x).toNat with hm | h0
          · exact hf _ hm
          · exact h0
        subst hve
        rw [hd]
        norm_num
    · rw [if_neg hp]
      exact ih field w h hf

lemma subtractLine_frame (pixels : List Pixel) :
    ∀ (field : List ℚ) (w h cx cy : ℤ),
      0 ≤ cx → cx < w → 0 ≤ cy → cy < h →
      (Pixel.mk cx cy) ∉ pixels →
      (subtractLine field pixels w h).getD (cy * w + cx).toNat 0 =
        field.getD (cy * w + cx).toNat 0 := by
  induction pixels with
  | nil => intro field w h cx cy _ _ _ _ _; rfl
  | cons p ps ih =>
    intro field w h cx cy hcx hcxw hcy hcyh hnm
    have hpnm : (Pixel.mk cx cy) ∉ ps := fun hc => hnm (List.mem_cons_of_mem _ hc)
    have hpne : Pixel.mk cx cy ≠ p := fun hc => hnm (hc ▸ List.mem_cons_self _ _)
    unfold subtractLine
    rw [List.foldl_cons]
    by_cases hp : inBoundsB w h p
    · rw [if_pos hp]
      have hrec := ih (field.set (p.y * w + p.x).toNat
          (max 0 (field.getD (p.y * w + p.x).toNat 0 - 25))) w h cx cy
        hcx hcxw hcy hcyh hpnm
      unfold subtractLine at hrec
      rw [hrec]
      have hpb : 0 ≤ p.x ∧ p.x < w ∧ 0 ≤ p.y ∧ p.y < h := by
        have := of_decide_eq_true hp
        exact this
      refine getD_set_ne _ _ _ _ ?_
      intro hidx
      have heq : p.y * w + p.x = cy * w + cx := by
        have h1 : (0 : ℤ) ≤ p.y * w + p.x := by
          have : (0 : ℤ) ≤ p.y * w := mul_nonneg hpb.2.2.1 (by linarith [hpb.1, hpb.2.1])
          linarith [hpb.1]
        have h2 : (0 : ℤ) ≤ cy * w + cx := by
          have : (0 : ℤ) ≤ cy * w := mul_nonneg hcy (by linarith)
          linarith
        omega
      obtain ⟨hex, hey⟩ := rowMajor_inj w p.x p.y cx cy hpb.1 hpb.2.1 hcx hcxw heq
      exact hpne (by cases p; simp_all)
    · rw [if_neg hp]
      exact ih field w h cx cy hcx hcxw hcy hcyh hpnm

lemma score_zero (pixels : List Pixel) (field : List ℚ) (w h : ℤ)
    (hf : ∀ v ∈ field, v = 0) : calculateLineScore pixels field w h = 0 := by
  unfold calculateLineScore
  rw [scoreFold_characterisation]
  have hsum : ((pixels.filter (inBoundsB w h)).map
      fun p => field.getD (p.y * w + p.x).toNat 0).sum = 0 := by
    apply List.sum_eq_zero
    intro v hv
    rcases List.mem_map.mp hv with ⟨p, hp, hpe⟩
    rcases getD_mem_or_default field (p.y * w + p.x).toNat with hm | h0
    · rw [← hpe]; exact hf _ hm
    · rw [← hpe]; exact h0
  simp only [zero_add]
  rw [hsum]
  simp

lemma considerCandidate_best_pred (P : ℕ → Prop) (nails : List Nail)
    (field : List ℚ) (w h : ℤ) (count minDist cur : ℕ) (acc : ScanAcc) (i : ℕ)
    (hacc : ∀ j s, acc.best = some (j, s) → P j)
    (hi : minDist ≤ circDist count cur i → P i) :
    ∀ j s, (considerCandidate nails field w h count minDist cur acc i).best
      = some (j, s) → P j := by
  intro j s hjs
  unfold considerCandidate at hjs
  by_cases hskip : circDist count cur i < minDist
  · rw [if_pos hskip] at hjs
    exact hacc j s hjs
  · rw [if_neg hskip] at hjs
    simp only at hjs
    cases hb : acc.best with
    | none =>
      rw [hb] at hjs
      simp only [Option.some.injEq, Prod.mk.injEq] at hjs
      rw [← hjs.1]
      exact hi (Nat.not_lt.mp hskip)
    | some pr =>
      obtain ⟨bi, bs⟩ := pr
      rw [hb] at hjs
      simp only at hjs
      by_cases hlt : bs < calculateLineScore
          (match cacheGet acc.cache (min cur i, max cur i) with
            | some px => px
            | none =>
                getLinePixels (jsRound ((nails.getD cur ⟨0, 0, 0⟩).x))
                  (jsRound ((nails.getD cur ⟨0, 0, 0⟩).y))
                  (jsRound ((nails.getD i ⟨0, 0, 0⟩).x))
                  (jsRound ((nails.getD i ⟨0, 0, 0⟩).y))) field w h
      · rw [if_pos hlt] at hjs
        simp only [Option.some.injEq, Prod.mk.injEq] at hjs
        rw [← hjs.1]
        exact hi (Nat.not_lt.mp hskip)
      · rw [if_neg hlt] at hjs
        simp only [Option.some.injEq, Prod.mk.injEq] at hjs
        rw [← hjs.1]
        exact hacc bi bs hb

lemma scanFold_pred (P : ℕ → Prop) (nails : List Nail) (field : List ℚ)
    (w h : ℤ) (count minDist cur : ℕ) :
    ∀ (L : List ℕ) (acc : ScanAcc),
      (∀ j s, acc.best = some (j, s) → P j) →
      (∀ i ∈ L, minDist ≤ circDist count cur i → P i) →
      ∀ j s,
        ((L.foldl (considerCandidate nails field w h count minDist cur) acc).best
          = some (j, s)) → P j := by
  intro L
  induction L with
  | nil => intro acc hacc _ j s hjs; exact hacc j s hjs
  | cons i L ih =>
    intro acc hacc hL j s hjs
    rw [List.foldl_cons] at hjs
    refine ih _ ?_ (fun x hx => hL x (List.mem_cons_of_mem _ hx)) j s hjs
    exact considerCandidate_best_pred P nails field w h count minDist cur acc i
      hacc (hL i (List.mem_cons_self _ _))

lemma considerCandidate_isSome (nails : List Nail) (field : List ℚ)
    (w h : ℤ) (count minDist cur : ℕ) (acc : ScanAcc) (i : ℕ)
    (hor : acc.best.isSome ∨ minDist ≤ circDist count cur i) :
    ((considerCandidate nails field w h count minDist cur acc i).best).isSome := by
  unfold considerCandidate
  by_cases hskip : circDist count cur i < minDist
  · rw [if_pos hskip]
    rcases hor with hs | hleg
    · exact hs
    · omega
  · rw [if_neg hskip]
    simp only
    cases hb : acc.best with
    | none => simp
    | some pr =>
      obtain ⟨bi, bs⟩ := pr
      simp only
      by_cases hlt : bs < calculateLineScore
          (match cacheGet acc.cache (min cur i, max cur i) with
            | some px => px
            | none =>
                getLinePixels (jsRound ((nails.getD cur ⟨0, 0, 0⟩).x))
                  (jsRound ((nails.getD cur ⟨0, 0, 0⟩).y))
                  (jsRound ((nails.getD i ⟨0, 0, 0⟩).x))
                  (jsRound ((nails.getD i ⟨0, 0, 0⟩).y))) field w h
      · rw [if_pos hlt]
        simp
      · rw [if_neg hlt]
        simp

lemma scanFold_isSome (nails : List Nail) (field : List ℚ)
    (w h : ℤ) (count minDist cur : ℕ) :
    ∀ (L : List ℕ) (acc : ScanAcc),
      ((∃ i ∈ L, minDist ≤ circDist count cur i) ∨ acc.best.isSome) →
      ((L.foldl (considerCandidate nails field w h count minDist cur) acc).best).isSome := by
  intro L
  induction L with
  | nil =>
    intro acc hor
    rcases hor with ⟨i, hi, _⟩ | hs
    · exact absurd hi (List.not_mem_nil i)
    · exact hs
  | cons i L ih =>
    intro acc hor
    rw [List.foldl_cons]
    rcases hor with ⟨x, hx, hleg⟩ | hs
    · rcases List.mem_cons.mp hx with rfl | hxL
      · exact ih _ (Or.inr (considerCandidate_isSome nails field w h count
          minDist cur acc x (Or.inr hleg)))
      · exact ih _ (Or.inl ⟨x, hxL, hleg⟩)
    · exact ih _ (Or.inr (considerCandidate_isSome nails field w h count
        minDist cur acc i (Or.inl hs)))

lemma considerCandidate_zero (nails : List Nail) (field : List ℚ)
    (w h : ℤ) (count minDist cur : ℕ) (acc : ScanAcc) (i : ℕ)
    (hf : ∀ v ∈ field, v = 0)
    (hacc : ∀ j s, acc.best = some (j, s) → s = 0) :
    (considerCandidate nails field w h count minDist cur acc i).best =
      match acc.best with
      | none =>
          if minDist ≤ circDist count cur i then some (i, (0 : ℚ)) else none
      | some b => some b := by
  unfold considerCandidate
  by_cases hskip : circDist count cur i < minDist
  · rw [if_pos hskip]
    cases hb : acc.best with
    | none =>
      simp only
      rw [if_neg (by omega)]
    | some b => simp only
  · rw [if_neg hskip]
    simp only
    rw [score_zero _ _ _ _ hf]
    cases hb : acc.best with
    | none =>
      simp only
      rw [if_pos (Nat.not_lt.mp hskip)]
    | some pr =>
      obtain ⟨bi, bs⟩ := pr
      have hbs : bs = 0 := hacc bi bs hb
      subst hbs
      simp only
      rw [if_neg (lt_irrefl 0)]

lemma scanFold_zero (nails : List Nail) (field : List ℚ)
    (w h : ℤ) (count minDist cur : ℕ) (hf : ∀ v ∈ field, v = 0) :
    ∀ (L : List ℕ) (acc : ScanAcc),
      (∀ j s, acc.best = some (j, s) → s = 0) →
      (L.foldl (considerCandidate nails field w h count minDist cur) acc).best =
        match acc.best with
        | none =>
            (L.find? fun i => decide (minDist ≤ circDist count cur i)).map
              fun i => (i, (0 : ℚ))
        | some b => some b := by
  intro L
  induction L with
  | nil =>
    intro acc hacc
    cases hb : acc.best with
    | none => simp [hb]
    | some b => simp [hb]
  | cons i L ih =>
    intro acc hacc
    rw [List.foldl_cons]
    have hcc := considerCandidate_zero nails field w h count minDist cur acc i
      hf hacc
    have hacc2 : ∀ j s,
        (considerCandidate nails field w h count minDist cur acc i).best
          = some (j, s) → s = 0 := by
      intro j s hjs
      rw [hcc] at hjs
      cases hb : acc.best with
      | none =>
        rw [hb] at hjs
        by_cases hleg : minDist ≤ circDist count cur i
        · rw [if_pos hleg] at hjs
          simp only [Option.some.injEq, Prod.mk.injEq] at hjs
          exact hjs.2.symm
        · rw [if_neg hleg] at hjs
          cases hjs
      | some pr =>
        obtain ⟨bi, bs⟩ := pr
        rw [hb] at hjs
        simp only [Option.some.injEq, Prod.mk.injEq] at hjs
        rw [← hjs.2]
        exact hacc bi bs hb
    rw [ih _ hacc2, hcc]
    cases hb : acc.best with
    | none =>
      by_cases hleg : minDist ≤ circDist count cur i
      · rw [if_pos hleg, List.find?_cons_of_pos _ (by simpa using hleg)]
        simp
      · rw [if_neg hleg, List.find?_cons_of_neg _ (by simpa using hleg)]
    | some b => simp

lemma buildStep_some_spec (nails : List Nail) (w h : ℤ) (count minDist : ℕ)
    (s sn : BuildState)
    (hstep : buildStep nails w h count minDist s = some sn) :
    ∃ j, sn.path = s.path ++ [⟨s.current, j⟩] ∧ sn.current = j ∧ j < count ∧
      minDist ≤ circDist count s.current j ∧
      sn.field = subtractLine s.field
        ((cacheGet sn.cache (min s.current j, max s.current j)).getD []) w h := by
  simp only [buildStep] at hstep
  cases hbest : (scanCandidates nails s.field w h count minDist s.current
      s.cache).best with
  | none => rw [hbest] at hstep; cases hstep
  | some pr =>
    obtain ⟨j, sc⟩ := pr
    rw [hbest] at hstep
    simp only [Option.some.injEq] at hstep
    have hP : j < count ∧ minDist ≤ circDist count s.current j := by
      refine scanFold_pred (fun j => j < count ∧ minDist ≤ circDist count s.current j)
        nails s.field w h count minDist s.current (List.range count)
        ⟨s.cache, none⟩ (by intro j s hc; cases hc) ?_ j sc ?_
      · intro i hi hleg
        exact ⟨List.mem_range.mp hi, hleg⟩
      · exact hbest
    refine ⟨j, ?_, ?_, hP.1, hP.2, ?_⟩
    · rw [← hstep]
    · rw [← hstep]
    · rw [← hstep]

lemma legal_exists (count cur : ℕ) (hcur : cur < count) :
    ∃ i, i < count ∧ count / 10 ≤ circDist count cur i := by
  by_cases hmd : count / 10 = 0
  · exact ⟨cur, hcur, by omega⟩
  · have h10 : 10 ≤ count := by omega
    rcases Nat.lt_or_ge (cur + count / 2) count with hlt | hge
    · refine ⟨cur + count / 2, hlt, ?_⟩
      unfold circDist
      have habs : ((cur : ℤ) - (cur + count / 2 : ℕ)).natAbs = count / 2 := by
        push_cast
        omega
      rw [habs, Nat.min_def]
      split <;> omega
    · have hc2 : count / 2 ≤ cur := by omega
      refine ⟨cur - count / 2, by omega, ?_⟩
      unfold circDist
      have habs : ((cur : ℤ) - (cur - count / 2 : ℕ)).natAbs = count / 2 := by
        push_cast [hc2]
        omega
      rw [habs, Nat.min_def]
      split <;> omega

lemma buildStep_total (nails : List Nail) (w h : ℤ) (count minDist : ℕ)
    (s : BuildState)
    (hex : ∃ i, i < count ∧ minDist ≤ circDist count s.current i) :
    ∃ sn, buildStep nails w h count minDist s = some sn := by
  simp only [buildStep]
  have hsome : ((scanCandidates nails s.field w h count minDist s.current
      s.cache).best).isSome := by
    unfold scanCandidates
    refine scanFold_isSome nails s.field w h count minDist s.current
      (List.range count) ⟨s.cache, none⟩ (Or.inl ?_)
    obtain ⟨i, hi, hleg⟩ := hex
    exact ⟨i, List.mem_range.mpr hi, hleg⟩
  cases hbest : (scanCandidates nails s.field w h count minDist s.current
      s.cache).best with
  | none => rw [hbest] at hsome; cases hsome
  | some pr =>
    obtain ⟨j, sc⟩ := pr
    exact ⟨_, rfl⟩

lemma buildLoop_path_invariant (nails : List Nail) (w h : ℤ)
    (count minDist : ℕ) (cancel : ℕ → Bool) :
    ∀ (b iter : ℕ) (s : BuildState),
      (∀ c ∈ s.path, minDist ≤ circDist count c.fromNail c.toNail) →
      ∀ c ∈ (buildLoop nails w h count minDist cancel b iter s).path,
        minDist ≤ circDist count c.fromNail c.toNail := by
  intro b
  induction b with
  | zero => intro iter s hs c hc; exact hs c hc
  | succ b ih =>
    intro iter s hs c hc
    unfold buildLoop at hc
    by_cases hcanc : cancel iter
    · rw [if_pos hcanc] at hc
      exact hs c hc
    · rw [if_neg hcanc] at hc
      cases hstep : buildStep nails w h count minDist s with
      | none => rw [hstep] at hc; exact hs c hc
      | some sn =>
        rw [hstep] at hc
        obtain ⟨j, hpath, _, _, hleg, _⟩ :=
          buildStep_some_spec nails w h count minDist s sn hstep
        refine ih (iter + 1) sn ?_ c hc
        intro c2 hc2
        rw [hpath] at hc2
        rcases List.mem_append.mp hc2 with hm | hm
        · exact hs c2 hm
        · rw [List.mem_singleton.mp hm]
          exact hleg

lemma buildLoop_field_bounds (nails : List Nail) (w h : ℤ)
    (count minDist : ℕ) (cancel : ℕ → Bool) :
    ∀ (b iter : ℕ) (s : BuildState),
      (∀ v ∈ s.field, 0 ≤ v ∧ v ≤ 255) →
      ∀ v ∈ (buildLoop nails w h count minDist cancel b iter s).field,
        0 ≤ v ∧ v ≤ 255 := by
  intro b
  induction b with
  | zero => intro iter s hs v hv; exact hs v hv
  | succ b ih =>
    intro iter s hs v hv
    unfold buildLoop at hv
    by_cases hcanc : cancel iter
    · rw [if_pos hcanc] at hv
      exact hs v hv
    · rw [if_neg hcanc] at hv
      cases hstep : buildStep nails w h count minDist s with
      | none => rw [hstep] at hv; exact hs v hv
      | some sn =>
        rw [hstep] at hv
        obtain ⟨j, _, _, _, _, hfield⟩ :=
          buildStep_some_spec nails w h count minDist s sn hstep
        refine ih (iter + 1) sn ?_ v hv
        rw [hfield]
        exact subtractLine_bounds _ s.field w h hs

lemma initDarkness_bounds (d : ImageData)
    (hd : ∀ c ∈ d.data, 0 ≤ c.1 ∧ c.1 ≤ 255 ∧ 0 ≤ c.2.1 ∧ c.2.1 ≤ 255 ∧
      0 ≤ c.2.2 ∧ c.2.2 ≤ 255) :
    ∀ v ∈ initDarkness d, 0 ≤ v ∧ v ≤ 255 := by
  intro v hv
  rcases List.mem_map.mp hv with ⟨c, hc, rfl⟩
  obtain ⟨h1, h2, h3, h4, h5, h6⟩ := hd c hc
  constructor <;> [linarith; linarith]

lemma buildLoop_zero_run (nails : List Nail) (w h : ℤ) (count : ℕ)
    (hcount : 1 ≤ count) :
    ∀ (b iter : ℕ) (s : BuildState),
      (∀ v ∈ s.field, v = 0) → s.current < count →
      (buildLoop nails w h count (count / 10) noCancel b iter s).path
        = s.path ++ zeroRunPath count (count / 10) b s.current := by
  intro b
  induction b with
  | zero => intro iter s hf hcur; simp [buildLoop, zeroRunPath]
  | succ b ih =>
    intro iter s hf hcur
    unfold buildLoop
    rw [if_neg (by simp [noCancel])]
    have hscan : (scanCandidates nails s.field w h count (count / 10)
        s.current s.cache).best
        = ((List.range count).find?
            fun i => decide (count / 10 ≤ circDist count s.current i)).map
          fun i => (i, (0 : ℚ)) := by
      unfold scanCandidates
      exact scanFold_zero nails s.field w h count (count / 10) s.current hf
        (List.range count) ⟨s.cache, none⟩ (by intro j s hc; cases hc)
    obtain ⟨i0, hi0, hleg0⟩ := legal_exists count s.current hcur
    have hsome : ((List.range count).find?
        fun i => decide (count / 10 ≤ circDist count s.current i)).isSome :=
      List.find?_isSome.mpr ⟨i0, List.mem_range.mpr hi0, by simpa using hleg0⟩
    cases hj : (List.range count).find?
        fun i => decide (count / 10 ≤ circDist count s.current i) with
    | none => rw [hj] at hsome; cases hsome
    | some j =>
      have hjc : j < count := List.mem_range.mp (List.mem_of_find?_eq_some hj)
      have hstep : buildStep nails w h count (count / 10) s = some
          ⟨subtractLine s.field
              ((cacheGet (scanCandidates nails s.field w h count (count / 10)
                  s.current s.cache).cache (min s.current j, max s.current j)).getD [])
              w h,
            (scanCandidates nails s.field w h count (count / 10)
              s.current s.cache).cache,
            s.path ++ [⟨s.current, j⟩], j⟩ := by
        simp only [buildStep, hscan, hj]
        rfl
      rw [hstep]
      rw [ih (iter + 1) _ (by
          exact subtractLine_zero _ s.field w h hf) (by exact hjc)]
      have hj2 : firstLegal count (count / 10) s.current = some j := hj
      have hzr : zeroRunPath count (count / 10) (b + 1) s.current
          = ⟨s.current, j⟩ :: zeroRunPath count (count / 10) b j := by
        conv_lhs => rw [zeroRunPath]
        rw [hj2]
      rw [hzr]
      simp

lemma zeroRunPath_length (count : ℕ) (hcount : 1 ≤ count) :
    ∀ (b cur : ℕ), cur < count →
      (zeroRunPath count (count / 10) b cur).length = b := by
  intro b
  induction b with
  | zero => intro cur hcur; rfl
  | succ b ih =>
    intro cur hcur
    obtain ⟨i0, hi0, hleg0⟩ := legal_exists count cur hcur
    have hsome : (firstLegal count (count / 10) cur).isSome :=
      List.find?_isSome.mpr ⟨i0, List.mem_range.mpr hi0, by simpa using hleg0⟩
    cases hj : firstLegal count (count / 10) cur with
    | none => rw [hj] at hsome; cases hsome
    | some j =>
      have hjc : j < count := List.mem_range.mp (List.mem_of_find?_eq_some hj)
      unfold zeroRunPath
      rw [hj]
      simp [ih j hjc]

lemma buildLoop_cancel_length (nails : List Nail) (w h : ℤ) (count N : ℕ)
    (hcount : 1 ≤ count) :
    ∀ (b iter : ℕ) (s : BuildState), s.current < count →
      (buildLoop nails w h count (count / 10) (cancelAfter N) b iter s).path.length
        = s.path.length + min b (N - iter) := by
  intro b
  induction b with
  | zero => intro iter s hcur; simp [buildLoop]
  | succ b ih =>
    intro iter s hcur
    unfold buildLoop
    by_cases hcanc : N ≤ iter
    · rw [if_pos (by simp [cancelAfter, hcanc])]
      have h0 : N - iter = 0 := by omega
      rw [h0]
      simp
    · rw [if_neg (by simp [cancelAfter]; omega)]
      obtain ⟨sn, hsn⟩ := buildStep_total nails w h count (count / 10) s
        (legal_exists count s.current hcur)
      obtain ⟨j, hpath, hcur2, hjc, _, _⟩ :=
        buildStep_some_spec nails w h count (count / 10) s sn hsn
      rw [hsn, ih (iter + 1) sn (by rw [hcur2]; exact hjc), hpath]
      simp only [List.length_append, List.length_singleton]
      omega

/-- C10: each build iteration's darkness update writes only the in-bounds
pixels of the winning line's cached rasterized pixel sequence: the new
field is exactly `subtractLine` of the old field along that sequence, and
every grid cell whose coordinates do not appear in the sequence keeps
exactly its previous value. -/
theorem buildStep_frame_effect (nails : List Nail) (w h : ℤ)
    (count minDist : ℕ) (s sn : BuildState)
    (hstep : buildStep nails w h count minDist s = some sn) :
    ∃ px, (∃ j, sn.path = s.path ++ [⟨s.current, j⟩] ∧
        px = (cacheGet sn.cache (min s.current j, max s.current j)).getD []) ∧
      sn.field = subtractLine s.field px w h ∧
      ∀ cx cy : ℤ, 0 ≤ cx → cx < w → 0 ≤ cy → cy < h →
        Pixel.mk cx cy ∉ px →
        sn.field.getD (cy * w + cx).toNat 0
          = s.field.getD (cy * w + cx).toNat 0 := by
  obtain ⟨j, hpath, hcur, hjc, hleg, hfield⟩ :=
    buildStep_some_spec nails w h count minDist s sn hstep
  refine ⟨_, ⟨j, hpath, rfl⟩, hfield, ?_⟩
  intro cx cy hcx hcxw hcy hcyh hnm
  rw [hfield]
  exact subtractLine_frame _ s.field w h cx cy hcx hcxw hcy hcyh hnm

/-- C1 (amended): every connection of the returned path has circular
pin-distance at least `Math.floor(nailCount * 0.1) = nailCount / 10`; when
`nailCount ≥ 10` (so that the gap is at least 1) this also forces
`from ≠ to`.  The candidate filter keeps exactly the pins `i` with
`circDist ≥ nailCount / 10`; when `nailCount < 10` the gap is 0 and
`i = current` itself is a legal candidate, so self-loop connections can
occur (see the counterexample). -/
theorem generateStringArt_min_gap (d : ImageData)
    (nailCount stringCount : ℕ) (cancel : ℕ → Bool)
    (hmin : 10 ≤ nailCount) :
    ∀ c ∈ (generateStringArt (some d) nailCount stringCount cancel).getD [],
      c.fromNail ≠ c.toNail ∧
      nailCount / 10 ≤ circDist nailCount c.fromNail c.toNail := by
  intro c hc
  simp only [generateStringArt, Option.getD_some] at hc
  have hgap := buildLoop_path_invariant
    (calculateNailPositions (d.width : ℚ) (d.height : ℚ) nailCount)
    (d.width : ℤ) (d.height : ℤ) nailCount (nailCount / 10) cancel
    stringCount 0 ⟨initDarkness d, [], [], 0⟩ (by intro c2 hc2; cases hc2) c hc
  refine ⟨?_, hgap⟩
  intro heq
  have h1 : 1 ≤ nailCount / 10 := by omega
  have h0 : circDist nailCount c.fromNail c.toNail = 0 := by
    rw [heq]
    unfold circDist
    simp
  omega

/-- Witness for the amended C1 at an all-white 1-by-1 image with 10 pins
and one iteration. -/
theorem generateStringArt_min_gap_witness :
    10 ≤ 10 ∧
    ∀ c ∈ (generateStringArt (some ⟨[(255, 255, 255)], 1, 1⟩)
        10 1 noCancel).getD [],
      c.fromNail ≠ c.toNail ∧ 10 / 10 ≤ circDist 10 c.fromNail c.toNail :=
  ⟨by norm_num, generateStringArt_min_gap ⟨[(255, 255, 255)], 1, 1⟩ 10 1
    noCancel (by norm_num)⟩

/-- C2: over a uniformly zero darkness field, starting at pin 0, the loop
never skips an iteration: the path is exactly the deterministic chain that
always picks the first legal candidate in ascending pin-index order (all
scores tie at 0, and only a strictly greater score replaces the best), and
its length is exactly the iteration budget. -/
theorem buildLoop_zero_field (nails : List Nail) (w h : ℤ) (count b : ℕ)
    (field : List ℚ) (hcount : 1 ≤ count) (hf : ∀ v ∈ field, v = 0) :
    (buildLoop nails w h count (count / 10) noCancel b 0
        ⟨field, [], [], 0⟩).path
      = zeroRunPath count (count / 10) b 0 ∧
    (buildLoop nails w h count (count / 10) noCancel b 0
        ⟨field, [], [], 0⟩).path.length = b := by
  have h1 := buildLoop_zero_run nails w h count hcount b 0
    ⟨field, [], [], 0⟩ hf hcount
  rw [h1]
  simp only [List.nil_append]
  exact ⟨trivial, zeroRunPath_length count hcount b 0 hcount⟩

/-- Witness for C2: a 4-pin layout over a zero 2-by-2 field with budget 3. -/
theorem buildLoop_zero_field_witness :
    1 ≤ 4 ∧ (∀ v ∈ ([0, 0, 0, 0] : List ℚ), v = 0) ∧
    ((buildLoop (calculateNailPositions 2 2 4) 2 2 4 (4 / 10) noCancel 3 0
        ⟨[0, 0, 0, 0], [], [], 0⟩).path
      = zeroRunPath 4 (4 / 10) 3 0 ∧
    (buildLoop (calculateNailPositions 2 2 4) 2 2 4 (4 / 10) noCancel 3 0
        ⟨[0, 0, 0, 0], [], [], 0⟩).path.length = 3) :=
  ⟨by norm_num, by intro v hv; simp at hv; exact hv,
    buildLoop_zero_field (calculateNailPositions 2 2 4) 2 2 4 3 [0, 0, 0, 0]
      (by norm_num) (by intro v hv; simp at hv; exact hv)⟩

/-- C9: the cancellation flag is consulted at the top of every iteration;
with a flag that fires after `N` completed iterations (`N` below the
budget), the run returns the partial path of length exactly `N`. -/
theorem generateStringArt_cancel_length (d : ImageData)
    (nailCount stringCount N : ℕ) (hcount : 1 ≤ nailCount)
    (hN : N < stringCount) :
    ((generateStringArt (some d) nailCount stringCount
        (cancelAfter N)).getD []).length = N := by
  simp only [generateStringArt, Option.getD_some]
  rw [buildLoop_cancel_length
    (calculateNailPositions (d.width : ℚ) (d.height : ℚ) nailCount)
    (d.width : ℤ) (d.height : ℤ) nailCount N hcount stringCount 0
    ⟨initDarkness d, [], [], 0⟩ hcount]
  simp
  omega

/-- Witness for C9: one pin, budget 3, cancelled after 2 iterations. -/
theorem generateStringArt_cancel_length_witness :
    1 ≤ 1 ∧ 2 < 3 ∧
    ((generateStringArt (some ⟨[], 0, 0⟩) 1 3 (cancelAfter 2)).getD []).length
      = 2 :=
  ⟨by norm_num, by norm_num,
    generateStringArt_cancel_length ⟨[], 0, 0⟩ 1 3 2 (by norm_num) (by norm_num)⟩

/-- C6: with every channel of the source image in `[0, 255]`, every cell of
the darkness field is in `[0, 255]` at all times: at initialisation
(`255 - (r+g+b)/3`), after any single subtraction pass (`max 0 (v - 25)`,
which also never raises a value), and after any number `k` of build
iterations of the run. -/
theorem darkness_field_bounds (d : ImageData)
    (nailCount k : ℕ) (cancel : ℕ → Bool)
    (hd : ∀ c ∈ d.data, 0 ≤ c.1 ∧ c.1 ≤ 255 ∧ 0 ≤ c.2.1 ∧ c.2.1 ≤ 255 ∧
      0 ≤ c.2.2 ∧ c.2.2 ≤ 255) :
    (∀ v ∈ initDarkness d, 0 ≤ v ∧ v ≤ 255) ∧
    (∀ (field : List ℚ) (pixels : List Pixel) (w h : ℤ),
      (∀ v ∈ field, 0 ≤ v ∧ v ≤ 255) →
      ∀ v ∈ subtractLine field pixels w h, 0 ≤ v ∧ v ≤ 255) ∧
    (∀ v ∈ (buildLoop
        (calculateNailPositions (d.width : ℚ) (d.height : ℚ) nailCount)
        (d.width : ℤ) (d.height : ℤ) nailCount (nailCount / 10) cancel k 0
        ⟨initDarkness d, [], [], 0⟩).field, 0 ≤ v ∧ v ≤ 255) := by
  refine ⟨initDarkness_bounds d hd, ?_, ?_⟩
  · intro field pixels w h hb
    exact subtractLine_bounds pixels field w h hb
  · exact buildLoop_field_bounds _ _ _ _ _ _ k 0 _ (initDarkness_bounds d hd)

/-- Witness for C6 at a one-pixel mid-grey image, two pins, three
iterations. -/
theorem darkness_field_bounds_witness :
    (∀ c ∈ ([((100 : ℚ), (100 : ℚ), (100 : ℚ))] : List (ℚ × ℚ × ℚ)),
      0 ≤ c.1 ∧ c.1 ≤ 255 ∧ 0 ≤ c.2.1 ∧ c.2.1 ≤ 255 ∧
      0 ≤ c.2.2 ∧ c.2.2 ≤ 255) ∧
    ((∀ v ∈ initDarkness ⟨[(100, 100, 100)], 1, 1⟩, 0 ≤ v ∧ v ≤ 255) ∧
     (∀ (field : List ℚ) (pixels : List Pixel) (w h : ℤ),
       (∀ v ∈ field, 0 ≤ v ∧ v ≤ 255) →
       ∀ v ∈ subtractLine field pixels w h, 0 ≤ v ∧ v ≤ 255) ∧
     (∀ v ∈ (buildLoop (calculateNailPositions ((1 : ℕ) : ℚ) ((1 : ℕ) : ℚ) 2)
         ((1 : ℕ) : ℤ) ((1 : ℕ) : ℤ) 2 (2 / 10) noCancel 3 0
         ⟨initDarkness ⟨[(100, 100, 100)], 1, 1⟩, [], [], 0⟩).field,
       0 ≤ v ∧ v ≤ 255)) :=
  ⟨by intro c hc; simp at hc; rw [hc]; norm_num,
    darkness_field_bounds ⟨[(100, 100, 100)], 1, 1⟩ 2 3 noCancel
      (by intro c hc; simp at hc; rw [hc]; norm_num)⟩

lemma buildLoop_count_zero (nails : List Nail) (w h : ℤ) (minDist : ℕ)
    (cancel : ℕ → Bool) :
    ∀ (b iter : ℕ) (s : BuildState),
      buildLoop nails w h 0 minDist cancel b iter s = s := by
  intro b
  induction b with
  | zero => intro iter s; rfl
  | succ b ih =>
    intro iter s
    unfold buildLoop
    by_cases hcanc : cancel iter
    · rw [if_pos hcanc]
    · rw [if_neg hcanc]
      have hstep : buildStep nails w h 0 minDist s = none := by
        simp [buildStep, scanCandidates]
      rw [hstep]

/-- C8 (amended): the only synchronous precondition check in the entry
point is the missing-image check (`if (!imageData) return`), which stops
before any work.  Numeric configuration is not validated: a zero pin count
or a zero iteration budget is not rejected but yields a normal run whose
path is empty, and non-positive image dimensions are not rejected at all
(the run proceeds and can return a non-empty path; see the
counterexample). -/
theorem generateStringArt_validation :
    (∀ (n s : ℕ) (c : ℕ → Bool), generateStringArt none n s c = none) ∧
    (∀ (d : ImageData) (s : ℕ) (c : ℕ → Bool),
      generateStringArt (some d) 0 s c = some []) ∧
    (∀ (d : ImageData) (n : ℕ) (c : ℕ → Bool),
      generateStringArt (some d) n 0 c = some []) := by
  refine ⟨fun n s c => rfl, ?_, fun d n c => rfl⟩
  intro d s c
  simp only [generateStringArt]
  rw [buildLoop_count_zero]

/-- C8 counterexample: with non-positive image dimensions (width = 0,
height = 0) the entry point does not reject the request: the run proceeds
over the empty field and returns a path with 3 connections, so work is
done and path entries are produced. -/
theorem generateStringArt_no_rejection :
    ((generateStringArt (some ⟨[], 0, 0⟩) 20 3 noCancel).getD []).length = 3 := by
  simp only [generateStringArt, Option.getD_some]
  rw [buildLoop_zero_run
    (calculateNailPositions ((0 : ℕ) : ℚ) ((0 : ℕ) : ℚ) 20)
    ((0 : ℕ) : ℤ) ((0 : ℕ) : ℤ) 20 (by norm_num) 3 0
    ⟨initDarkness ⟨[], 0, 0⟩, [], [], 0⟩ (by simp [initDarkness]) (by norm_num)]
  simp only [List.nil_append]
  exact zeroRunPath_length 20 (by norm_num) 3 0 (by norm_num)

/-- C1 counterexample: with 4 pins (so `Math.floor(4 * 0.1) = 0`) on an
all-white 1-by-1 image, pin 0 itself passes the distance filter, ties at
score 0 win for the lowest index, and the returned path is the self-loop
connection `{from: 0, to: 0}` — contradicting the claim that every
connection satisfies `from ≠ to`. -/
theorem generateStringArt_self_loop :
    (generateStringArt (some ⟨[(255, 255, 255)], 1, 1⟩) 4 1 noCancel).getD []
      = [⟨0, 0⟩] := by
  simp only [generateStringArt, Option.getD_some]
  have hf : ∀ v ∈ initDarkness ⟨[(255, 255, 255)], 1, 1⟩, v = 0 := by
    intro v hv
    simp [initDarkness] at hv
    subst hv
    norm_num
  rw [buildLoop_zero_run (calculateNailPositions ((1 : ℕ) : ℚ) ((1 : ℕ) : ℚ) 4)
    ((1 : ℕ) : ℤ) ((1 : ℕ) : ℤ) 4 (by norm_num) 1 0
    ⟨initDarkness ⟨[(255, 255, 255)], 1, 1⟩, [], [], 0⟩ hf (by norm_num)]
  simp only [List.nil_append]
  decide

lemma witness_step_eval :
    buildStep [⟨0, 0, 0⟩] 0 0 1 0 ⟨[], [], [], 0⟩
      = some ⟨[], [((0, 0), [⟨0, 0⟩])], [⟨0, 0⟩], 0⟩ := by
  have hr : List.range 1 = [0] := rfl
  have hjs : jsRound 0 = 0 := by norm_num [jsRound]
  have hline : getLinePixels 0 0 0 0 = [⟨0, 0⟩] := by decide
  have hscore : calculateLineScore [⟨0, 0⟩] [] 0 0 = 0 := by
    norm_num [calculateLineScore, inBoundsB]
  have hcc : considerCandidate [⟨0, 0, 0⟩] [] 0 0 1 0 0 ⟨[], none⟩ 0
      = ⟨[((0, 0), [⟨0, 0⟩])], some (0, 0)⟩ := by
    simp only [considerCandidate, circDist, cacheGet, List.find?]
    norm_num [hjs, hline, hscore]
  have hscan : scanCandidates [⟨0, 0, 0⟩] [] 0 0 1 0 0 []
      = ⟨[((0, 0), [⟨0, 0⟩])], some (0, 0)⟩ := by
    simp only [scanCandidates, hr, List.foldl_cons, List.foldl_nil, hcc]
  simp only [buildStep, hscan]
  norm_num [cacheGet, List.find?, subtractLine]

/-- Witness for C10: one pin on an empty grid; the step subtracts along the
cached single-pixel line and every cell outside it (vacuously, all of an
empty grid's cells) is untouched. -/
theorem buildStep_frame_effect_witness :
    buildStep [⟨0, 0, 0⟩] 0 0 1 0 ⟨[], [], [], 0⟩
      = some ⟨[], [((0, 0), [⟨0, 0⟩])], [⟨0, 0⟩], 0⟩ ∧
    ∃ px,
      (∃ j, (⟨[], [((0, 0), [⟨0, 0⟩])], [⟨0, 0⟩], 0⟩ : BuildState).path
          = (⟨[], [], [], 0⟩ : BuildState).path
            ++ [⟨(⟨[], [], [], 0⟩ : BuildState).current, j⟩] ∧
        px = (cacheGet
            (⟨[], [((0, 0), [⟨0, 0⟩])], [⟨0, 0⟩], 0⟩ : BuildState).cache
            (min (⟨[], [], [], 0⟩ : BuildState).current j,
              max (⟨[], [], [], 0⟩ : BuildState).current j)).getD []) ∧
      (⟨[], [((0, 0), [⟨0, 0⟩])], [⟨0, 0⟩], 0⟩ : BuildState).field
        = subtractLine (⟨[], [], [], 0⟩ : BuildState).field px 0 0 ∧
      ∀ cx cy : ℤ, 0 ≤ cx → cx < 0 → 0 ≤ cy → cy < 0 →
        Pixel.mk cx cy ∉ px →
        ((⟨[], [((0, 0), [⟨0, 0⟩])], [⟨0, 0⟩], 0⟩ : BuildState).field).getD
            (cy * 0 + cx).toNat 0
          = ((⟨[], [], [], 0⟩ : BuildState).field).getD (cy * 0 + cx).toNat 0 :=
  ⟨witness_step_eval,
    buildStep_frame_effect [⟨0, 0, 0⟩] 0 0 1 0 ⟨[], [], [], 0⟩
      ⟨[], [((0, 0), [⟨0, 0⟩])], [⟨0, 0⟩], 0⟩ witness_step_eval⟩
